import Mathlib

/-!
# Verification of the DECAF Faiss index/search engine

Shallow embedding of the core of `src/main/python/faiss_index.py` and
`src/main/python/faiss_search.py`: the sharded vector index builder, the
shard catalog with binary-search ordinal lookup, the multi-query weighted
search pipeline, and the document text store resolution.

Vectors are embedded as `List ℚ` (exact rationals in place of float32:
the claims under study are about data flow, not rounding). External
library calls are embedded by their documented semantics:
`numpy.dot` as the rational dot product, Python `sorted` (a stable sort)
as a stable insertion sort, `bisect.bisect` as the stdlib binary search
algorithm itself.
-/

namespace DECAF

/-- A dense vector, embedded as a list of rationals. -/
abbrev Vec := List ℚ

/-- `numpy.dot x y` for 1-d arrays: the dot product. -/
def npDot (x y : Vec) : ℚ := (List.zipWith (· * ·) x y).sum

/-- Sum of squared differences, `numpy.sum(numpy.square(x - y))`. -/
def npSumSqDiff (x y : Vec) : ℚ := (List.zipWith (fun a b => (a - b) * (a - b)) x y).sum

/-- `compute_similarity(x, y, similarity)` from `faiss_search.py` lines 73-81.
`"cos"` and `"dot"` return the dot product, `"l2sq"` the sum of squared
differences.  `"l2"` returns the square root of the `"l2sq"` value, which is
irrational in general; the square-root operation is passed in as `sqrtFn`.
For any other string Python falls through (`pass`, returning `None`, which
would fault at the call site); that unreachable branch is mapped to `0`. -/
def compute_similarity (sqrtFn : ℚ → ℚ) (x y : Vec) (similarity : String) : ℚ :=
  if similarity = "cos" ∨ similarity = "dot" then npDot x y
  else if similarity = "l2" then sqrtFn (npSumSqDiff x y)
  else if similarity = "l2sq" then npSumSqDiff x y
  else 0

/-- Stable descending insertion by second component: the element `a` is placed
before the first element whose score is strictly below `a`'s score. -/
def insertDesc (a : Nat × ℚ) : List (Nat × ℚ) → List (Nat × ℚ)
  | [] => [a]
  | b :: l => if a.2 < b.2 then b :: insertDesc a l else a :: b :: l

/-- Python `sorted(items, key = operator.itemgetter(1), reverse = True)`
(`faiss_search.py` line 198): a stable sort, descending by second component.
Embedded as stable insertion sort, which computes the same function. -/
def sortedByScoreDesc (l : List (Nat × ℚ)) : List (Nat × ℚ) :=
  l.foldr insertDesc []

/-- Lines 198-199 of `faiss_search.py`: sort the `(ordinal, score)` pairs by
score in descending order, then keep the first `min(len(result), num_documents)`
of them. -/
def result_code (scores : List (Nat × ℚ)) (numDocuments : Nat) : List (Nat × ℚ) :=
  (sortedByScoreDesc scores).take (min (sortedByScoreDesc scores).length numDocuments)

/-- Python `dict` update `d[k] = v`: overwrite the value in place when the key
exists (keeping insertion order), else append the new pair. -/
def assocUpsert (d : List (Nat × ℚ)) (k : Nat) (v : ℚ) : List (Nat × ℚ) :=
  match d with
  | [] => [(k, v)]
  | p :: rest => if p.1 = k then (k, v) :: rest else p :: assocUpsert rest k v

/-- Lines 196-197 of `faiss_search.py`:
`{x : sum([queries_weight[i] * compute_similarity(vectors[x], queries_vector[i], similarity)])
  for i in range(num_queries) for x in indexes_retrieved}`.
The dict comprehension iterates `i` in the outer position and `x` in the
inner one, so each later query pass overwrites the entry written by the
previous pass (the `sum` is over a one-element list and is the identity).
Embedded with Python dict semantics via `assocUpsert`. -/
def queries_result (U : List Nat) (vecs : Nat → Vec) (qvecs : List Vec)
    (qweights : List ℚ) (sqrtFn : ℚ → ℚ) (similarity : String) : List (Nat × ℚ) :=
  (List.range qvecs.length).foldl
    (fun d i => U.foldl
      (fun d x => assocUpsert d x
        (qweights.getD i 0 * compute_similarity sqrtFn (vecs x) (qvecs.getD i []) similarity)) d)
    []

/-- Follows the spec's words (§4.3 step 4): the aggregate score of a candidate
vector is the sum over all queries of weight × similarity(candidate, query). -/
def aggregateScore_spec (qweights : List ℚ) (qvecs : List Vec) (sqrtFn : ℚ → ℚ)
    (similarity : String) (v : Vec) : ℚ :=
  ((List.range qvecs.length).map
    (fun i => qweights.getD i 0 * compute_similarity sqrtFn v (qvecs.getD i []) similarity)).sum

/-- Line 189 of `faiss_search.py`:
`{int(x.item()) for x in indexes[i] for i in range(num_queries) if x >= 0}`.
The first iterable `indexes[i]` is evaluated once, in the enclosing scope,
where `i` is the leftover variable of the query-reading loop, i.e.
`i = num_queries - 1`; the inner `for i in range(num_queries)` only
re-adds the same elements.  So the set holds the non-negative entries of the
LAST query's row only.  (With `num_queries = 0` the comprehension body never
runs and the stale `i` indexes out of bounds; that path raises in Python and
is excluded by the `1 ≤ numQueries` hypotheses below.) -/
def indexes_retrieved_code (indexes : List (List Int)) (numQueries : Nat) : Finset ℤ :=
  if numQueries = 0 then ∅
  else ((indexes.getD (numQueries - 1) []).filter (fun x => 0 ≤ x)).toFinset

/-- Follows the spec's words (§4.3 step 2): union over ALL queries of the
non-negative ordinals returned for that query. -/
def candidateSet_spec (indexes : List (List Int)) (numQueries : Nat) : Finset ℤ :=
  (Finset.range numQueries).biUnion
    (fun i => ((indexes.getD i []).filter (fun x => 0 ≤ x)).toFinset)

/-- `bisect.bisect(a, x)` from the Python standard library (an alias of
`bisect_right`), called at `faiss_search.py` line 85: binary search returning
the insertion point to the right of existing entries.  The stdlib algorithm:
`while lo < hi: mid = (lo+hi)//2; if x < a[mid]: hi = mid else: lo = mid+1`,
returning `lo`. -/
def bisectRight (a : List Nat) (x : Nat) (lo hi : Nat) : Nat :=
  if h : lo < hi then
    if x < a.getD ((lo + hi) / 2) 0 then bisectRight a x lo ((lo + hi) / 2)
    else bisectRight a x ((lo + hi) / 2 + 1) hi
  else lo
termination_by hi - lo
decreasing_by
  · omega
  · omega

/-- `retrieve_vector_from_index(x, shards, starts)` from `faiss_search.py`
lines 84-88: `i = bisect.bisect(starts, x) - 1; j = x - starts[i];
shards.at(i).reconstruct(j)`.  Reconstruction of local offset `j` of shard
`i` returns that shard's `j`-th stored vector; an out-of-range access (a
Python fault) is `none`. -/
def retrieve_vector_from_index (x : Nat) (shards : List (List Vec)) (starts : List Nat) :
    Option Vec :=
  let i := bisectRight starts x 0 starts.length - 1
  (shards.getD i [])[x - starts.getD i 0]?

/-- The shard-catalog loading loop of `faiss_search.py` lines 130-142:
`shards_start.append(curr_start); curr_start += ntotal` per shard, so
`starts[i] = Σ sizes of shards 0..i-1`. -/
def buildStarts (sizes : List Nat) : List Nat :=
  (sizes.foldl (fun (acc : List Nat × Nat) s => (acc.1 ++ [acc.2], acc.2 + s)) ([], 0)).1

/-- Structural form of the starting-ordinal table, used for reasoning. -/
def shardStarts : List Nat → List Nat
  | [] => []
  | s :: rest => 0 :: (shardStarts rest).map (· + s)

/-- State of the indexing loop of `faiss_index.py` lines 147-218, counting
documents: `shards` holds the sizes of the shard files written so far (in
write order, shard number `i+1` for position `i`), `docCount` is
`doc_index_counter`, `batch` is `len(text_batch)`, and `syncs` counts the
empty sync lines printed at line 212. -/
structure BuildState where
  shards : List Nat
  docCount : Nat
  batch : Nat
  syncs : Nat
deriving DecidableEq

/-- One iteration of the `while True` read loop (`faiss_index.py` lines
160-216): append the line to the batch unless empty; when the line is empty
or the batch reached `batchSize`, process the batch, add its length to
`doc_index_counter`, clear it, and if `doc_index_counter >= chunks_size`
write the current shard and reset the counter; finally print the sync line. -/
def buildStep (batchSize chunksSize : Nat) (st : BuildState) (line : String) : BuildState :=
  let batchA := if line ≠ "" then st.batch + 1 else st.batch
  if line = "" ∨ batchSize ≤ batchA then
    let docA := st.docCount + batchA
    if chunksSize ≤ docA then ⟨st.shards ++ [docA], 0, 0, st.syncs + 1⟩
    else ⟨st.shards, docA, 0, st.syncs + 1⟩
  else ⟨st.shards, st.docCount, batchA, st.syncs⟩

/-- The state after the read loop has consumed the whole input stream
(`EOFError` breaks the loop). -/
def buildLoop (batchSize chunksSize : Nat) (lines : List String) : BuildState :=
  lines.foldl (buildStep batchSize chunksSize) ⟨[], 0, 0, 0⟩

/-- Sizes of all shard files written by a whole build run (`faiss_index.py`
lines 160-237): the loop shards plus, after EOF, the leftover batch processed
(lines 220-227) and the final non-empty shard flushed (lines 229-237). -/
def buildShards (batchSize chunksSize : Nat) (lines : List String) : List Nat :=
  let st := buildLoop batchSize chunksSize lines
  if 0 < st.docCount + st.batch then st.shards ++ [st.docCount + st.batch] else st.shards

/-- Whether the final pair of timing lines (`faiss_index.py` lines 246-247)
is exactly `0.0` / `0.0`: true when the leftover batch after EOF is empty
(line 227 then assigns the literal pair `(0.0, 0.0)`) and no final shard
write happens (lines 230-237 would add a measured, positive duration to
`index_time`).  When the leftover batch is non-empty, line 223 stores
measured (positive) durations instead. -/
def finalTimingsZero (batchSize chunksSize : Nat) (lines : List String) : Bool :=
  let st := buildLoop batchSize chunksSize lines
  st.batch = 0 && st.docCount = 0

/-- Total number of empty sync lines printed on the error stream by a build
run: one per processed batch (line 212) plus the unconditional final one
(line 244).  (The init-phase "ready" line is counted separately by
`indexerInitSyncLines`.) -/
def builderRunSyncs (batchSize chunksSize : Nat) (lines : List String) : Nat :=
  (buildLoop batchSize chunksSize lines).syncs + 1

/-- Reference loop tracking only the batch flushes: `flushed` is the list of
sizes of the non-empty batches handed to `process_batch`, in order. -/
structure BatchState where
  flushed : List Nat
  batch : Nat
deriving DecidableEq

/-- The batch bookkeeping of the read loop, without the shard counter. -/
def batchStep (batchSize : Nat) (st : BatchState) (line : String) : BatchState :=
  let batchA := if line ≠ "" then st.batch + 1 else st.batch
  if line = "" ∨ batchSize ≤ batchA then
    ⟨if 0 < batchA then st.flushed ++ [batchA] else st.flushed, 0⟩
  else ⟨st.flushed, batchA⟩

/-- Sizes of all non-empty batches processed by a whole build run, including
the leftover batch processed after EOF. -/
def processedBatches (batchSize : Nat) (lines : List String) : List Nat :=
  let st := lines.foldl (batchStep batchSize) ⟨[], 0⟩
  if 0 < st.batch then st.flushed ++ [st.batch] else st.flushed

/-- The configuration of the index builder that its startup validation
examines (`faiss_index.py` lines 104-113). -/
structure IndexerConfig where
  similarity : String
  batchSize : Int
  chunksSize : Int
deriving DecidableEq

/-- The startup validation of `faiss_index.py` lines 108-113, executed
strictly before the model loading and the "ready" sync print of line 141:
unknown similarity, non-positive batch size and non-positive chunk size each
raise. -/
def indexerInit (cfg : IndexerConfig) : Except String Unit :=
  if cfg.similarity ∉ ["cos", "dot", "l2", "l2sq"] then
    Except.error "The provided similarity function is unknown."
  else if cfg.batchSize < 1 then
    Except.error "The provided batch size is not a positive integer number."
  else if cfg.chunksSize < 1 then
    Except.error "The provided chunks size is not a positive integer number."
  else Except.ok ()

/-- Empty sync lines emitted by the builder's init phase: the single "ready"
line of `faiss_index.py` line 141 is reached only when validation did not
raise; a raise propagates to the top-level handler, which prints the trace
(not an empty line) instead. -/
def indexerInitSyncLines (cfg : IndexerConfig) : List String :=
  match indexerInit cfg with
  | Except.ok _ => [""]
  | Except.error _ => []

/-- A parsed search request (`faiss_search.py` lines 162-178): the encoded
(and, under `"cos"`, normalized) query vectors with their weights, and the
requested document count. -/
structure SearchRequest where
  queries : List (Vec × ℚ)
  numDocuments : Int
deriving DecidableEq

/-- Outcome of reading one request from the input stream. -/
inductive ReadOutcome where
  | eof
  | malformed (msg : String)
  | request (req : SearchRequest) (rest : List String)
deriving DecidableEq

/-- Outcome of the query-reading loop (`faiss_search.py` lines 166-175). -/
inductive PairsOutcome where
  | eof
  | malformed
  | ok (qs : List (Vec × ℚ)) (rest : List String)
deriving DecidableEq

/-- The query-reading loop of `faiss_search.py` lines 166-175: for each of
the `n` queries, read a text line, encode it (`compute_vector`, an external
model call passed in as `encode`), divide by its norm when the similarity is
`"cos"` (the norm value, a float library call, passed in as `normFn`), then
read and parse the weight line (`float(...)`, passed in as `parseFloatF`;
`none` models a `ValueError`, which is not caught by the `except EOFError`
and aborts).  Running out of input raises `EOFError`, which is caught. -/
def readQueryPairs (parseFloatF : String → Option ℚ) (encode : String → Vec)
    (normFn : Vec → ℚ) (similarity : String) : Nat → List String → PairsOutcome
  | 0, rest => PairsOutcome.ok [] rest
  | _ + 1, [] => PairsOutcome.eof
  | _ + 1, [_] => PairsOutcome.eof
  | n + 1, t :: w :: rest =>
    let v := encode t
    let v2 := if similarity = "cos" then v.map (· / normFn v) else v
    match parseFloatF w with
    | none => PairsOutcome.malformed
    | some wq =>
      match readQueryPairs parseFloatF encode normFn similarity n rest with
      | PairsOutcome.ok qs r => PairsOutcome.ok ((v2, wq) :: qs) r
      | o => o

/-- Reading one full request (`faiss_search.py` lines 162-182): the query
count line (`int(...)`, via `parseIntF`; `none` models `ValueError`), the
query/weight pairs, then the document count line.  End of input anywhere
raises `EOFError`, caught by line 181: a clean break.  A negative query
count makes `range(num_queries)` empty, hence `Int.toNat`. -/
def readRequest (parseIntF : String → Option Int) (parseFloatF : String → Option ℚ)
    (encode : String → Vec) (normFn : Vec → ℚ) (similarity : String) :
    List String → ReadOutcome
  | [] => ReadOutcome.eof
  | qline :: rest =>
    match parseIntF qline with
    | none => ReadOutcome.malformed "invalid query count"
    | some q =>
      match readQueryPairs parseFloatF encode normFn similarity q.toNat rest with
      | PairsOutcome.eof => ReadOutcome.eof
      | PairsOutcome.malformed => ReadOutcome.malformed "invalid weight"
      | PairsOutcome.ok qs rest2 =>
        match rest2 with
        | [] => ReadOutcome.eof
        | kline :: rest3 =>
          match parseIntF kline with
          | none => ReadOutcome.malformed "invalid document count"
          | some k => ReadOutcome.request ⟨qs, k⟩ rest3

/-- The loaded search engine: the shard contents and starting-ordinal table,
the faiss `shards.search` primitive (external, passed as `searchFn`), the
square-root operation for the `"l2"` metric, and the similarity choice. -/
structure SearchState where
  shards : List (List Vec)
  starts : List Nat
  searchFn : List (Vec × ℚ) → Int → List (List Int)
  sqrtFn : ℚ → ℚ
  similarity : String

/-- List form of the candidate set of line 189 (`indexes_retrieved_code`),
keeping Python's iteration as some fixed enumeration without duplicates. -/
def indexes_retrieved_list (indexes : List (List Int)) (numQueries : Nat) : List Int :=
  if numQueries = 0 then []
  else ((indexes.getD (numQueries - 1) []).filter (fun x => 0 ≤ x)).dedup

/-- The response computation for one request (`faiss_search.py` lines
186-199): run the shard search, form the candidate set, reconstruct each
candidate's stored vector through the catalog, score, sort descending and
truncate. -/
def handleRequest (st : SearchState) (req : SearchRequest) : List (Nat × ℚ) :=
  let indexes := st.searchFn req.queries req.numDocuments
  let u := (indexes_retrieved_list indexes req.queries.length).map Int.toNat
  let vecsFn := fun x => (retrieve_vector_from_index x st.shards st.starts).getD []
  let scores := queries_result u vecsFn (req.queries.map Prod.fst)
    (req.queries.map Prod.snd) st.sqrtFn st.similarity
  result_code scores req.numDocuments.toNat

/-- Observable events of the run phase: a faiss shard search, and a printed
result block. -/
inductive RunEvent where
  | search (queries : List (Vec × ℚ)) (k : Int)
  | respond (block : List (Nat × ℚ))

/-- How the run phase ended: `clean` for the two break paths (end of input,
or a document count below 1), `error` for an uncaught exception. -/
inductive RunExit where
  | clean
  | error (msg : String)
deriving DecidableEq

/-- The request loop of `faiss_search.py` lines 156-227, with explicit fuel
(one unit per request; `lines.length + 1` always suffices because a request
consumes at least one input line, so the fuel-exhaustion branch is
unreachable). -/
def runLoopAux (st : SearchState) (parseIntF : String → Option Int)
    (parseFloatF : String → Option ℚ) (encode : String → Vec) (normFn : Vec → ℚ) :
    Nat → List String → List RunEvent × RunExit
  | 0, _ => ([], RunExit.clean)
  | fuel + 1, lines =>
    match readRequest parseIntF parseFloatF encode normFn st.similarity lines with
    | ReadOutcome.eof => ([], RunExit.clean)
    | ReadOutcome.malformed m => ([], RunExit.error m)
    | ReadOutcome.request req rest =>
      if req.numDocuments < 1 then ([], RunExit.clean)
      else
        let block := handleRequest st req
        let next := runLoopAux st parseIntF parseFloatF encode normFn fuel rest
        (RunEvent.search req.queries req.numDocuments :: RunEvent.respond block :: next.1,
          next.2)

/-- The whole run phase over an input stream. -/
def runLoop (st : SearchState) (parseIntF : String → Option Int)
    (parseFloatF : String → Option ℚ) (encode : String → Vec) (normFn : Vec → ℚ)
    (lines : List String) : List RunEvent × RunExit :=
  runLoopAux st parseIntF parseFloatF encode normFn (lines.length + 1) lines

/-- The whitespace characters stripped by `.strip(' \t\r\n')` at
`faiss_search.py` line 210. -/
def isWS (c : Char) : Bool := c == ' ' || c == '\t' || c == '\r' || c == '\n'

/-- Python `str.strip(' \t\r\n')`: remove those characters from both ends. -/
def pyStrip (s : List Char) : List Char :=
  ((s.dropWhile isWS).reverse.dropWhile isWS).reverse

/-- Python `str.split('\t')` with an explicit separator: split at EVERY tab,
keeping empty fields; the result is always non-empty. -/
def pySplitTab : List Char → List (List Char)
  | [] => [[]]
  | c :: cs =>
    match pySplitTab cs with
    | [] => [[c]]
    | f :: rest => if c = '\t' then [] :: f :: rest else (c :: f) :: rest

/-- Line 210-212 of `faiss_search.py`:
`temp = f.readline().strip(' \t\r\n').split('\t'); doc_id = temp[0];
doc_text = temp[1]`.  An out-of-range `temp[1]` (no tab in the line) is a
Python `IndexError`; it is modelled as the empty string. -/
def parseDocLine (line : List Char) : List Char × List Char :=
  let t := pySplitTab (pyStrip line)
  (t.getD 0 [], t.getD 1 [])

/-- `f.seek(off); f.readline()` on a text file, up to (and excluding) the
newline; the trailing `'\n'` that Python's `readline` keeps is removed by the
`.strip(' \t\r\n')` of line 210 anyway, so it is dropped here already. -/
def readLineAt (file : List Char) (off : Nat) : List Char :=
  (file.drop off).takeWhile (· ≠ '\n')

/-- Lines 209-212 of `faiss_search.py`: seek to `docs_ref[doc_index]`, read
one line, split it into id and text. -/
def resolveDoc (file : List Char) (refs : List Nat) (ordinal : Nat) :
    List Char × List Char :=
  parseDocLine (readLineAt file (refs.getD ordinal 0))

/-- `norms` lists the Euclidean norms of the rows of `vectors`
(`numpy.linalg.norm(vectors, axis = 1)`): componentwise non-negative with
squares equal to the row's sum of squares. -/
def isEuclideanNormsOf (norms : List ℚ) (vectors : List Vec) : Prop :=
  norms.length = vectors.length ∧
  ∀ i < vectors.length, 0 ≤ norms.getD i 0 ∧
    norms.getD i 0 * norms.getD i 0 = ((vectors.getD i []).map (fun a => a * a)).sum

instance (norms : List ℚ) (vectors : List Vec) :
    Decidable (isEuclideanNormsOf norms vectors) := by
  unfold isEuclideanNormsOf; infer_instance

/-- Line 81 of `faiss_index.py`: `faiss_index.add(vectors / vectors_norm)`
where `vectors` has shape (B, W) and `vectors_norm` shape (B,).  NumPy
broadcasting aligns the norm vector with the LAST axis: the division is
defined only when W = B (otherwise a `ValueError` is raised — the code lacks
the `[:, None]` that would make it per-row), and then entry (i, j) is divided
by `norms[j]`, the norm of vector `j`, not of vector `i`.  Embedded for the
square W = B case. -/
def normalizeBatch_code (vectors : List Vec) (norms : List ℚ) : List Vec :=
  vectors.map (fun row => List.zipWith (· / ·) row norms)

/-- Follows the spec's words (§4.1): L2-normalize each vector of the batch by
dividing it by its own Euclidean norm. -/
def normalizeBatch_spec (vectors : List Vec) (norms : List ℚ) : List Vec :=
  List.zipWith (fun row n => row.map (· / n)) vectors norms

theorem insertDesc_perm (a : Nat × ℚ) (l : List (Nat × ℚ)) :
    (insertDesc a l).Perm (a :: l) := by
  induction l with
  | nil => simp [insertDesc]
  | cons b t ih =>
    simp only [insertDesc]
    split
    · exact (List.Perm.cons b ih).trans (List.Perm.swap a b t)
    · exact List.Perm.refl _

theorem sortedByScoreDesc_perm (l : List (Nat × ℚ)) :
    (sortedByScoreDesc l).Perm l := by
  induction l with
  | nil => simp [sortedByScoreDesc]
  | cons a t ih =>
    simpa [sortedByScoreDesc] using (insertDesc_perm a (sortedByScoreDesc t)).trans (ih.cons a)

theorem insertDesc_pairwise (a : Nat × ℚ) (l : List (Nat × ℚ))
    (h : l.Pairwise (fun p q => q.2 ≤ p.2)) :
    (insertDesc a l).Pairwise (fun p q => q.2 ≤ p.2) := by
  induction l with
  | nil => simp [insertDesc]
  | cons b t ih =>
    simp only [insertDesc]
    rcases List.pairwise_cons.mp h with ⟨hb, ht⟩
    split
    · rename_i hab
      refine List.pairwise_cons.mpr ⟨?_, ih ht⟩
      intro q hq
      have hmem := (insertDesc_perm a t).mem_iff.mp hq
      rcases List.mem_cons.mp hmem with hq2 | hq2
      · exact hq2 ▸ le_of_lt hab
      · exact hb q hq2
    · rename_i hab
      push_neg at hab
      refine List.pairwise_cons.mpr ⟨?_, h⟩
      intro q hq
      rcases List.mem_cons.mp hq with hq2 | hq2
      · exact hq2 ▸ hab
      · exact le_trans (hb q hq2) hab

theorem sortedByScoreDesc_pairwise (l : List (Nat × ℚ)) :
    (sortedByScoreDesc l).Pairwise (fun p q => q.2 ≤ p.2) := by
  induction l with
  | nil => simp [sortedByScoreDesc]
  | cons a t ih => exact insertDesc_pairwise a _ ih

theorem sortedByScoreDesc_length (l : List (Nat × ℚ)) :
    (sortedByScoreDesc l).length = l.length :=
  (sortedByScoreDesc_perm l).length_eq

theorem assocUpsert_keys (d : List (Nat × ℚ)) (k : Nat) (v : ℚ) :
    (assocUpsert d k v).map Prod.fst =
      if k ∈ d.map Prod.fst then d.map Prod.fst else d.map Prod.fst ++ [k] := by
  induction d with
  | nil => simp [assocUpsert]
  | cons p rest ih =>
    by_cases hpk : p.1 = k
    · simp [assocUpsert, hpk]
    · simp only [assocUpsert, if_neg hpk, List.map_cons]
      rw [ih]
      by_cases hk : k ∈ rest.map Prod.fst
      · simp [hk, Ne.symm hpk]
      · simp [hk, Ne.symm hpk]

theorem pass_keys_of_disjoint (f : Nat → ℚ) (U : List Nat) (d : List (Nat × ℚ))
    (hU : U.Nodup) (hdisj : ∀ x ∈ U, x ∉ d.map Prod.fst) :
    (U.foldl (fun d x => assocUpsert d x (f x)) d).map Prod.fst = d.map Prod.fst ++ U := by
  induction U generalizing d with
  | nil => simp
  | cons x U2 ih =>
    simp only [List.foldl_cons]
    have hx : x ∉ d.map Prod.fst := hdisj x (by simp)
    have hkeys : (assocUpsert d x (f x)).map Prod.fst = d.map Prod.fst ++ [x] := by
      rw [assocUpsert_keys, if_neg hx]
    rw [ih _ (List.Nodup.of_cons hU) ?_, hkeys]
    · simp
    · intro y hy
      rw [hkeys]
      simp only [List.mem_append, List.mem_singleton]
      push_neg
      refine ⟨hdisj y (List.mem_cons_of_mem x hy), ?_⟩
      intro hxy
      exact (List.nodup_cons.mp hU).1 (hxy ▸ hy)

theorem pass_keys_preserved (f : Nat → ℚ) (U : List Nat) (d : List (Nat × ℚ))
    (hsub : ∀ x ∈ U, x ∈ d.map Prod.fst) :
    (U.foldl (fun d x => assocUpsert d x (f x)) d).map Prod.fst = d.map Prod.fst := by
  induction U generalizing d with
  | nil => simp
  | cons x U2 ih =>
    simp only [List.foldl_cons]
    have hx : x ∈ d.map Prod.fst := hsub x (by simp)
    have hkeys : (assocUpsert d x (f x)).map Prod.fst = d.map Prod.fst := by
      rw [assocUpsert_keys, if_pos hx]
    rw [ih _ ?_, hkeys]
    intro y hy
    rw [hkeys]
    exact hsub y (List.mem_cons_of_mem x hy)

theorem passes_keys_preserved (g : Nat → Nat → ℚ) (U : List Nat) (L : List Nat)
    (d : List (Nat × ℚ)) (hsub : ∀ x ∈ U, x ∈ d.map Prod.fst) :
    (L.foldl (fun d i => U.foldl (fun d x => assocUpsert d x (g i x)) d) d).map Prod.fst
      = d.map Prod.fst := by
  induction L generalizing d with
  | nil => simp
  | cons i L2 ih =>
    simp only [List.foldl_cons]
    have h1 := pass_keys_preserved (g i) U d hsub
    rw [ih _ ?_, h1]
    intro y hy
    rw [h1]
    exact hsub y hy

theorem queries_result_keys (U : List Nat) (vecs : Nat → Vec) (qvecs : List Vec)
    (qweights : List ℚ) (sqrtFn : ℚ → ℚ) (similarity : String)
    (hU : U.Nodup) (hQ : 1 ≤ qvecs.length) :
    (queries_result U vecs qvecs qweights sqrtFn similarity).map Prod.fst = U := by
  unfold queries_result
  obtain ⟨Q2, hQ2⟩ : ∃ Q2, qvecs.length = Q2 + 1 := ⟨qvecs.length - 1, by omega⟩
  rw [hQ2, List.range_succ_eq_map]
  simp only [List.foldl_cons]
  have h1 := pass_keys_of_disjoint
    (fun x => qweights.getD 0 0 * compute_similarity sqrtFn (vecs x) (qvecs.getD 0 []) similarity)
    U [] hU (by simp)
  simp only [List.map_nil, List.nil_append] at h1
  have h2 := passes_keys_preserved
    (fun i x => qweights.getD i 0 * compute_similarity sqrtFn (vecs x) (qvecs.getD i []) similarity)
    U ((List.range Q2).map Nat.succ) _ (by rw [h1]; exact fun x hx => hx)
  rw [h2, h1]

/-- C1: the claim says the score of each candidate is the SUM over all queries
of weight × similarity.  The code (dict comprehension at `faiss_search.py`
line 196, with `i` in the outer position) instead overwrites the entry on each
query pass, leaving only the LAST query's weighted similarity.  At the claim's
own example — weights 2 and 1, raw similarities 0.5 and 0.3 — the code
produces score 0.3 for the shared candidate while the claim (and the code's
own comment, "Compute the weighted sum of the scores of each document for all
queries") demand 1.3. -/
theorem aggregate_score_is_last_query_only :
    queries_result [7] (fun _ => [1]) [[1/2], [3/10]] [2, 1] id "dot" = [(7, 3/10)] ∧
    aggregateScore_spec [2, 1] [[1/2], [3/10]] id "dot" [1] = 13/10 ∧
    (3/10 : ℚ) ≠ 13/10 := by
  refine ⟨?_, ?_, by norm_num⟩
  · simp [queries_result, assocUpsert, compute_similarity, npDot, List.range_succ]
  · simp [aggregateScore_spec, compute_similarity, npDot, List.range_succ]
    norm_num

/-- C2: the claim says the candidate set U is the union over ALL queries of
the returned non-negative ordinals.  Because line 189 of `faiss_search.py`
evaluates `indexes[i]` with the stale loop variable `i = num_queries - 1`,
only the last query's row enters U.  With two queries returning ordinal 0 and
ordinal 1 respectively, the code's U is `{1}`: ordinal 0, returned by the
first query, is dropped, while the spec's union contains it. -/
theorem candidate_set_is_last_query_only :
    indexes_retrieved_code [[0], [1]] 2 = {1} ∧
    (0 : ℤ) ∈ candidateSet_spec [[0], [1]] 2 ∧
    (0 : ℤ) ∉ indexes_retrieved_code [[0], [1]] 2 := by decide

/-- C6: for every search request the returned list is the candidate-score
table sorted by score in descending order (the same "higher score wins" sort
for every similarity string, L2 included), truncated to exactly
`min(K, |U|)` pairs: there is a permutation `l` of the score table, pairwise
descending by score, with the returned list equal to `l.take K`, and the
returned length is `min K |U|`. -/
theorem search_results_sorted_desc_truncated
    (U : List Nat) (vecs : Nat → Vec) (qvecs : List Vec) (qweights : List ℚ)
    (sqrtFn : ℚ → ℚ) (similarity : String) (K : Nat)
    (hU : U.Nodup) (hQ : 1 ≤ qvecs.length) :
    ∃ l : List (Nat × ℚ),
      (queries_result U vecs qvecs qweights sqrtFn similarity).Perm l ∧
      l.Pairwise (fun p q => q.2 ≤ p.2) ∧
      result_code (queries_result U vecs qvecs qweights sqrtFn similarity) K = l.take K ∧
      (result_code (queries_result U vecs qvecs qweights sqrtFn similarity) K).length
        = min K U.length := by
  set scores := queries_result U vecs qvecs qweights sqrtFn similarity with hscores
  have hlen : scores.length = U.length := by
    have h := queries_result_keys U vecs qvecs qweights sqrtFn similarity hU hQ
    calc scores.length = (scores.map Prod.fst).length := by rw [List.length_map]
    _ = U.length := by rw [← hscores] at h; rw [h]
  have htake : result_code scores K = (sortedByScoreDesc scores).take K := by
    unfold result_code
    rw [min_comm, ← List.take_take, List.take_length]
  refine ⟨sortedByScoreDesc scores, (sortedByScoreDesc_perm scores).symm,
    sortedByScoreDesc_pairwise scores, htake, ?_⟩
  rw [htake, List.length_take, sortedByScoreDesc_length, hlen]

theorem buildStarts_loop (sizes : List Nat) : ∀ (done : List Nat) (curr : Nat),
    (sizes.foldl (fun (acc : List Nat × Nat) s => (acc.1 ++ [acc.2], acc.2 + s)) (done, curr)).1
      = done ++ (shardStarts sizes).map (· + curr) := by
  induction sizes with
  | nil => intro done curr; simp [shardStarts]
  | cons s rest ih =>
    intro done curr
    simp only [List.foldl_cons, shardStarts, List.map_cons, List.map_map]
    rw [ih]
    have hfun : ((· + curr) ∘ (· + s) : Nat → Nat) = (· + (curr + s)) := by
      funext z; simp; omega
    rw [hfun]
    simp

theorem buildStarts_eq_shardStarts (sizes : List Nat) :
    buildStarts sizes = shardStarts sizes := by
  have h := buildStarts_loop sizes [] 0
  simpa [buildStarts] using h

theorem shardStarts_length (sizes : List Nat) :
    (shardStarts sizes).length = sizes.length := by
  induction sizes with
  | nil => simp [shardStarts]
  | cons s rest ih => simp [shardStarts, ih]

theorem shardStarts_getD (sizes : List Nat) :
    ∀ i, i < sizes.length → (shardStarts sizes).getD i 0 = (sizes.take i).sum := by
  induction sizes with
  | nil => simp
  | cons s rest ih =>
    intro i hi
    cases i with
    | zero => simp [shardStarts]
    | succ i2 =>
      have hi2 : i2 < rest.length := by simpa using hi
      have hlen : i2 < (shardStarts rest).length := by rw [shardStarts_length]; exact hi2
      simp only [shardStarts, List.getD_cons_succ, List.take_succ_cons, List.sum_cons]
      rw [List.getD_eq_getElem _ 0 (by simpa using hlen), List.getElem_map,
        ← List.getD_eq_getElem _ 0 hlen, ih i2 hi2]
      omega

theorem sum_take_mono (l : List Nat) (i j : Nat) (hij : i ≤ j) :
    (l.take i).sum ≤ (l.take j).sum := by
  have h1 : l.take i = (l.take j).take i := by rw [List.take_take, min_eq_left hij]
  rw [h1]
  conv_rhs => rw [← List.take_append_drop i (l.take j)]
  rw [List.sum_append]
  exact Nat.le_add_right _ _

theorem shardStarts_mono (sizes : List Nat) (i j : Nat) (hij : i ≤ j)
    (hj : j < sizes.length) :
    (shardStarts sizes).getD i 0 ≤ (shardStarts sizes).getD j 0 := by
  rw [shardStarts_getD sizes i (by omega), shardStarts_getD sizes j hj]
  exact sum_take_mono sizes i j hij

theorem bisectRight_spec (a : List Nat) (x : Nat)
    (hmono : ∀ i j, i ≤ j → j < a.length → a.getD i 0 ≤ a.getD j 0) :
    ∀ n lo hi, hi - lo ≤ n → lo ≤ hi → hi ≤ a.length →
      lo ≤ bisectRight a x lo hi ∧ bisectRight a x lo hi ≤ hi ∧
      (∀ i, lo ≤ i → i < bisectRight a x lo hi → a.getD i 0 ≤ x) ∧
      (∀ i, bisectRight a x lo hi ≤ i → i < hi → x < a.getD i 0) := by
  intro n
  induction n with
  | zero =>
    intro lo hi hn hlh _
    rw [bisectRight, dif_neg (by omega)]
    exact ⟨le_refl _, by omega, by omega, by omega⟩
  | succ n ih =>
    intro lo hi hn hlh hha
    by_cases hlt : lo < hi
    · rw [bisectRight, dif_pos hlt]
      have hm1 : lo ≤ (lo + hi) / 2 := by omega
      have hm2 : (lo + hi) / 2 < hi := by omega
      by_cases hx : x < a.getD ((lo + hi) / 2) 0
      · rw [if_pos hx]
        obtain ⟨h1, h2, h3, h4⟩ := ih lo ((lo + hi) / 2) (by omega) hm1 (by omega)
        refine ⟨h1, by omega, h3, ?_⟩
        intro i hri hih
        by_cases him : i < (lo + hi) / 2
        · exact h4 i hri him
        · exact lt_of_lt_of_le hx (hmono _ i (by omega) (by omega))
      · rw [if_neg hx]
        push_neg at hx
        obtain ⟨h1, h2, h3, h4⟩ := ih ((lo + hi) / 2 + 1) hi (by omega) (by omega) hha
        refine ⟨by omega, h2, ?_, h4⟩
        intro i hli hir
        by_cases him : (lo + hi) / 2 + 1 ≤ i
        · exact h3 i him hir
        · exact le_trans (hmono i _ (by omega) (by omega)) hx
    · rw [bisectRight, dif_neg hlt]
      exact ⟨le_refl _, hlh, by omega, by omega⟩

theorem flatten_getElem (shards : List (List Vec)) :
    ∀ i j, i < shards.length → j < (shards.getD i []).length →
      shards.flatten[(((shards.map List.length).take i).sum + j)]? = (shards.getD i [])[j]? := by
  induction shards with
  | nil => intro i j hi _; simp at hi
  | cons sh rest ih =>
    intro i j hi hj
    cases i with
    | zero =>
      simp only [List.take_zero, List.sum_nil, Nat.zero_add, List.getD_cons_zero] at hj ⊢
      rw [List.flatten_cons, List.getElem?_append_left hj]
    | succ i2 =>
      have hi2 : i2 < rest.length := by simpa using hi
      simp only [List.map_cons, List.take_succ_cons, List.sum_cons, List.getD_cons_succ,
        List.flatten_cons] at hj ⊢
      rw [List.getElem?_append_right (by omega)]
      have harith : sh.length + (((rest.map List.length).take i2).sum + j) - sh.length
          = ((rest.map List.length).take i2).sum + j := by omega
      rw [Nat.add_assoc, harith]
      exact ih i2 j hi2 hj

/-- C3: for a catalog built from the given shards (starting ordinals = prefix
sums of the shard sizes, as built by the loading loop), every global ordinal
`o` below the total size is looked up by the binary search to the pair
`(s, off)` with the greatest `start[s] ≤ o`, satisfying
`start[s] ≤ o < start[s] + size[s]`, and reconstruction returns exactly the
vector appended at build time for `o` (the `o`-th vector of the concatenated
shard contents). -/
theorem catalog_lookup_reconstructs (shards : List (List Vec)) (o : Nat)
    (ho : o < (shards.map List.length).sum) :
    let sizes := shards.map List.length
    let starts := buildStarts sizes
    let s := bisectRight starts o 0 starts.length - 1
    starts.getD s 0 ≤ o ∧ o < starts.getD s 0 + sizes.getD s 0 ∧
    retrieve_vector_from_index o shards starts = shards.flatten[o]? ∧
    (retrieve_vector_from_index o shards starts).isSome := by
  intro sizes starts s
  have hretr : retrieve_vector_from_index o shards starts
      = (shards.getD s [])[o - starts.getD s 0]? := rfl
  have hsz : sizes = shards.map List.length := rfl
  have hst : starts = buildStarts sizes := rfl
  have hsdef : s = bisectRight starts o 0 starts.length - 1 := rfl
  clear_value s starts sizes
  have hosum : o < sizes.sum := by rw [hsz]; exact ho
  have hbs : starts = shardStarts sizes := by rw [hst, buildStarts_eq_shardStarts]
  have hslen : starts.length = sizes.length := by rw [hbs, shardStarts_length]
  have hshlen : sizes.length = shards.length := by rw [hsz, List.length_map]
  have hmono : ∀ i j, i ≤ j → j < starts.length → starts.getD i 0 ≤ starts.getD j 0 := by
    intro i j hij hj
    rw [hbs]
    exact shardStarts_mono sizes i j hij (by omega)
  obtain ⟨r, hr⟩ : ∃ r, bisectRight starts o 0 starts.length = r := ⟨_, rfl⟩
  rw [hr] at hsdef
  obtain ⟨h1, h2, h3, h4⟩ := bisectRight_spec starts o hmono starts.length 0 starts.length
    (by omega) (by omega) (le_refl _)
  rw [hr] at h2 h3 h4
  have hN : 0 < sizes.length := by
    by_contra hc
    push_neg at hc
    have hnil : sizes = [] := List.length_eq_zero.mp (by omega)
    rw [hnil] at hosum
    simp at hosum
  have hstart0 : starts.getD 0 0 = 0 := by
    rw [hbs, shardStarts_getD sizes 0 hN]
    simp
  have hrpos : 1 ≤ r := by
    by_contra hc
    push_neg at hc
    have h0 := h4 0 (by omega) (by omega)
    rw [hstart0] at h0
    omega
  have hslt : s < sizes.length := by omega
  have hle : starts.getD s 0 ≤ o := h3 s (by omega) (by omega)
  have hss : starts.getD s 0 = (sizes.take s).sum := by
    rw [hbs, shardStarts_getD _ s hslt]
  have hsum_succ : (sizes.take (s + 1)).sum = (sizes.take s).sum + sizes.getD s 0 := by
    rw [List.sum_take_succ sizes s hslt, List.getD_eq_getElem _ 0 hslt]
  have hupper : o < (sizes.take (s + 1)).sum := by
    by_cases hrl : r < starts.length
    · have h5 := h4 r (le_refl r) hrl
      have hrs : starts.getD r 0 = (sizes.take r).sum := by
        rw [hbs, shardStarts_getD _ r (by omega)]
      rw [hrs] at h5
      have hreq : r = s + 1 := by omega
      rw [hreq] at h5
      exact h5
    · have hteq : s + 1 = sizes.length := by omega
      rw [hteq, List.take_length]
      exact hosum
  have hub : o < starts.getD s 0 + sizes.getD s 0 := by omega
  have hsize_s : sizes.getD s 0 = (shards.getD s []).length := by
    rw [List.getD_eq_getElem sizes 0 hslt, List.getD_eq_getElem shards [] (by omega)]
    subst hsz
    rw [List.getElem_map]
  have hjlt : o - starts.getD s 0 < (shards.getD s []).length := by omega
  have hflat := flatten_getElem shards s (o - starts.getD s 0) (by omega) hjlt
  have hidx : ((shards.map List.length).take s).sum + (o - starts.getD s 0) = o := by
    rw [← hsz]
    omega
  rw [hidx] at hflat
  refine ⟨hle, hub, ?_, ?_⟩
  · rw [hretr, hflat]
  · rw [hretr, List.getElem?_eq_getElem hjlt]
    rfl

/-- Closed witness for `catalog_lookup_reconstructs`: two shards of sizes
2 and 1; ordinal 2 resolves to shard index 1, offset 0, vector `[3]`. -/
theorem catalog_lookup_reconstructs_witness :
    2 < ([[[(1 : ℚ)], [2]], [[3]]].map List.length).sum ∧
    (let sizes := [[[(1 : ℚ)], [2]], [[3]]].map List.length
     let starts := buildStarts sizes
     let s := bisectRight starts 2 0 starts.length - 1
     starts.getD s 0 ≤ 2 ∧ 2 < starts.getD s 0 + sizes.getD s 0 ∧
     retrieve_vector_from_index 2 [[[(1 : ℚ)], [2]], [[3]]] starts
       = [[[(1 : ℚ)], [2]], [[3]]].flatten[2]? ∧
     (retrieve_vector_from_index 2 [[[(1 : ℚ)], [2]], [[3]]] starts).isSome) :=
  ⟨by decide, catalog_lookup_reconstructs [[[(1 : ℚ)], [2]], [[3]]] 2 (by decide)⟩

/-- The loop invariant of the build read loop: the pending batch is below the
batch size, the open shard is below the chunk size, and every shard written
so far holds at most `C + B - 1` vectors. -/
def BuildInv (B C : Nat) (st : BuildState) : Prop :=
  st.batch < B ∧ st.docCount < C ∧ ∀ sz ∈ st.shards, sz ≤ C + B - 1

theorem buildStep_inv (B C : Nat) (hB : 1 ≤ B) (hC : 1 ≤ C) (st : BuildState)
    (line : String) (h : BuildInv B C st) : BuildInv B C (buildStep B C st line) := by
  obtain ⟨hb, hd, hs⟩ := h
  unfold buildStep BuildInv
  by_cases hA : line = "" ∨ B ≤ (if line ≠ "" then st.batch + 1 else st.batch)
  · rw [if_pos hA]
    by_cases hW : C ≤ st.docCount + (if line ≠ "" then st.batch + 1 else st.batch)
    · rw [if_pos hW]
      refine ⟨hB, hC, ?_⟩
      dsimp only
      intro sz hsz
      rcases List.mem_append.mp hsz with hm | hm
      · exact hs sz hm
      · have heq : sz = st.docCount + (if line ≠ "" then st.batch + 1 else st.batch) := by
          simpa using hm
        split at heq <;> omega
    · rw [if_neg hW]
      refine ⟨hB, ?_, hs⟩
      dsimp only
      omega
  · rw [if_neg hA]
    push_neg at hA
    refine ⟨?_, hd, hs⟩
    dsimp only
    omega

theorem buildLoop_inv (B C : Nat) (hB : 1 ≤ B) (hC : 1 ≤ C) :
    ∀ (lines : List String) (st : BuildState), BuildInv B C st →
      BuildInv B C (lines.foldl (buildStep B C) st) := by
  intro lines
  induction lines with
  | nil => intro st h; exact h
  | cons l rest ih =>
    intro st h
    exact ih _ (buildStep_inv B C hB hC st l h)

theorem buildStep_batch_sim (B : Nat) (st : BuildState) (bst : BatchState) (line : String)
    (h1 : st.docCount = 0) (h2 : st.shards = bst.flushed) (h3 : st.batch = bst.batch) :
    (buildStep B 1 st line).docCount = 0 ∧
    (buildStep B 1 st line).shards = (batchStep B bst line).flushed ∧
    (buildStep B 1 st line).batch = (batchStep B bst line).batch := by
  simp only [buildStep, batchStep, h1, h3, h2]
  split_ifs <;> refine ⟨?_, ?_, ?_⟩ <;> first
    | omega
    | simp_all

theorem buildLoop_batch_sim (B : Nat) :
    ∀ (lines : List String) (st : BuildState) (bst : BatchState),
      st.docCount = 0 → st.shards = bst.flushed → st.batch = bst.batch →
      (lines.foldl (buildStep B 1) st).docCount = 0 ∧
      (lines.foldl (buildStep B 1) st).shards = (lines.foldl (batchStep B) bst).flushed ∧
      (lines.foldl (buildStep B 1) st).batch = (lines.foldl (batchStep B) bst).batch := by
  intro lines
  induction lines with
  | nil => intro st bst h1 h2 h3; exact ⟨h1, h2, h3⟩
  | cons l rest ih =>
    intro st bst h1 h2 h3
    obtain ⟨g1, g2, g3⟩ := buildStep_batch_sim B st bst l h1 h2 h3
    exact ih _ _ g1 g2 g3

/-- C5: the rollover check runs only after a whole batch has been appended
(never splitting a batch across shards), so (i) every shard a build run
writes holds at most `C + B - 1` vectors — and that bound is attained, e.g.
a run with batch size 3 and chunk size 4 producing a single shard of
4 + 3 - 1 = 6 vectors — and (ii) with chunk size 1 the run produces exactly
one shard per batch-flush point, of exactly the flushed batch's size, not
one shard per vector. -/
theorem batch_never_split_across_shards (B C : Nat) (lines : List String)
    (hB : 1 ≤ B) (hC : 1 ≤ C) :
    (∀ sz ∈ buildShards B C lines, sz ≤ C + B - 1) ∧
    buildShards B 1 lines = processedBatches B lines ∧
    buildShards 3 4 ["d", "", "d", "", "d", "", "d", "d", "d"] = [4 + 3 - 1] := by
  refine ⟨?_, ?_, by decide⟩
  · have hinv := buildLoop_inv B C hB hC lines ⟨[], 0, 0, 0⟩ ⟨hB, hC, by simp⟩
    obtain ⟨hb, hd, hs⟩ := hinv
    intro sz hsz
    simp only [buildShards, buildLoop] at hsz
    by_cases hP : 0 < (lines.foldl (buildStep B C) ⟨[], 0, 0, 0⟩).docCount
        + (lines.foldl (buildStep B C) ⟨[], 0, 0, 0⟩).batch
    · rw [if_pos hP] at hsz
      rcases List.mem_append.mp hsz with hm | hm
      · exact hs sz hm
      · have heq : sz = (lines.foldl (buildStep B C) ⟨[], 0, 0, 0⟩).docCount
            + (lines.foldl (buildStep B C) ⟨[], 0, 0, 0⟩).batch := by
          simpa using hm
        omega
    · rw [if_neg hP] at hsz
      exact hs sz hsz
  · obtain ⟨g1, g2, g3⟩ := buildLoop_batch_sim B lines ⟨[], 0, 0, 0⟩ ⟨[], 0⟩ rfl rfl rfl
    simp only [buildShards, processedBatches, buildLoop]
    rw [g1, g2, g3]
    simp only [Nat.zero_add]

/-- Closed witness for `batch_never_split_across_shards` with batch size 3,
chunk size 4 and a seven-document input. -/
theorem batch_never_split_across_shards_witness :
    1 ≤ 3 ∧ 1 ≤ 4 ∧
    ((∀ sz ∈ buildShards 3 4 ["a", "b", "c", "d", "e", "f", "g"], sz ≤ 4 + 3 - 1) ∧
      buildShards 3 1 ["a", "b", "c", "d", "e", "f", "g"]
        = processedBatches 3 ["a", "b", "c", "d", "e", "f", "g"] ∧
      buildShards 3 4 ["d", "", "d", "", "d", "", "d", "d", "d"] = [4 + 3 - 1]) :=
  ⟨by decide, by decide,
    batch_never_split_across_shards 3 4 ["a", "b", "c", "d", "e", "f", "g"]
      (by decide) (by decide)⟩

/-- C10: a build run whose input holds no non-empty document line (in
particular the completely empty input stream) writes no shard file at all —
the shard list is empty, so the filename template is never instantiated —
while the final timing pair is the literal (0.0, 0.0) and one empty sync
line is still printed per flush point plus the unconditional final one. -/
theorem empty_input_build_writes_nothing (B C : Nat) (lines : List String)
    (hC : 1 ≤ C) (hempty : ∀ l ∈ lines, l = "") :
    buildShards B C lines = [] ∧ finalTimingsZero B C lines = true ∧
    builderRunSyncs B C lines = lines.length + 1 := by
  have hfix : ∀ (ls : List String) (st : BuildState), (∀ l ∈ ls, l = "") →
      st.shards = [] → st.docCount = 0 → st.batch = 0 →
      (ls.foldl (buildStep B C) st).shards = [] ∧
      (ls.foldl (buildStep B C) st).docCount = 0 ∧
      (ls.foldl (buildStep B C) st).batch = 0 ∧
      (ls.foldl (buildStep B C) st).syncs = st.syncs + ls.length := by
    intro ls
    induction ls with
    | nil => intro st _ g1 g2 g3; exact ⟨g1, g2, g3, by simp⟩
    | cons l rest ih =>
      intro st hemp g1 g2 g3
      have hl : l = "" := hemp l (by simp)
      have hstep : buildStep B C st l = ⟨st.shards, 0, 0, st.syncs + 1⟩ := by
        unfold buildStep
        rw [if_pos (Or.inl hl)]
        rw [if_neg ?_]
        · rw [hl]
          simp [g2, g3]
        · rw [hl]
          simp [g2, g3]
          omega
      simp only [List.foldl_cons, hstep]
      obtain ⟨k1, k2, k3, k4⟩ := ih ⟨st.shards, 0, 0, st.syncs + 1⟩
        (fun x hx => hemp x (by simp [hx])) g1 rfl rfl
      refine ⟨k1, k2, k3, ?_⟩
      rw [k4]
      simp
      omega
  obtain ⟨k1, k2, k3, k4⟩ := hfix lines ⟨[], 0, 0, 0⟩ hempty rfl rfl rfl
  simp only [buildShards, finalTimingsZero, builderRunSyncs, buildLoop]
  simp only [k1, k2, k3, k4]
  simp

/-- Closed witness for `empty_input_build_writes_nothing` at the truly empty
input stream. -/
theorem empty_input_build_writes_nothing_witness :
    1 ≤ 5 ∧ (∀ l ∈ ([] : List String), l = "") ∧
    (buildShards 16 5 [] = [] ∧ finalTimingsZero 16 5 [] = true ∧
      builderRunSyncs 16 5 [] = ([] : List String).length + 1) :=
  ⟨by decide, by simp,
    empty_input_build_writes_nothing 16 5 [] (by decide) (by simp)⟩

/-- C8: any configuration with an unknown similarity choice, a non-positive
batch size or a non-positive chunk size makes the builder's startup
validation raise, and the "ready" sync empty line (which comes strictly
after validation) is never emitted. -/
theorem bad_config_fatal_before_ready (cfg : IndexerConfig)
    (hbad : cfg.similarity ∉ ["cos", "dot", "l2", "l2sq"] ∨
      cfg.batchSize < 1 ∨ cfg.chunksSize < 1) :
    (∃ e, indexerInit cfg = Except.error e) ∧ indexerInitSyncLines cfg = [] := by
  have herr : ∃ e, indexerInit cfg = Except.error e := by
    unfold indexerInit
    by_cases h1 : cfg.similarity ∉ ["cos", "dot", "l2", "l2sq"]
    · rw [if_pos h1]
      exact ⟨_, rfl⟩
    · rw [if_neg h1]
      by_cases h2 : cfg.batchSize < 1
      · rw [if_pos h2]
        exact ⟨_, rfl⟩
      · rw [if_neg h2]
        rcases hbad with hb | hb | hb
        · exact absurd hb h1
        · exact absurd hb h2
        · rw [if_pos hb]
          exact ⟨_, rfl⟩
  obtain ⟨e, he⟩ := herr
  refine ⟨⟨e, he⟩, ?_⟩
  unfold indexerInitSyncLines
  rw [he]

/-- Closed witness for `bad_config_fatal_before_ready`: a zero batch size. -/
theorem bad_config_fatal_before_ready_witness :
    ((⟨"cos", 0, 5⟩ : IndexerConfig).similarity ∉ ["cos", "dot", "l2", "l2sq"] ∨
      (⟨"cos", 0, 5⟩ : IndexerConfig).batchSize < 1 ∨
      (⟨"cos", 0, 5⟩ : IndexerConfig).chunksSize < 1) ∧
    ((∃ e, indexerInit ⟨"cos", 0, 5⟩ = Except.error e) ∧
      indexerInitSyncLines ⟨"cos", 0, 5⟩ = []) :=
  ⟨by decide, bad_config_fatal_before_ready ⟨"cos", 0, 5⟩ (by decide)⟩

/-- C7: a request whose document count K is below 1 terminates the run
cleanly: the run produces no events at all (in particular no shard search
and no result block) and exits by the clean path, not the error path. -/
theorem k_below_one_terminates_cleanly (st : SearchState)
    (parseIntF : String → Option Int) (parseFloatF : String → Option ℚ)
    (encode : String → Vec) (normFn : Vec → ℚ) (lines : List String)
    (req : SearchRequest) (rest : List String)
    (hread : readRequest parseIntF parseFloatF encode normFn st.similarity lines
      = ReadOutcome.request req rest)
    (hk : req.numDocuments < 1) :
    runLoop st parseIntF parseFloatF encode normFn lines = ([], RunExit.clean) := by
  unfold runLoop runLoopAux
  rw [hread]
  dsimp only
  rw [if_pos hk]

/-- Closed witness for `k_below_one_terminates_cleanly`: the request stream
`"0"` (zero queries) then `"0"` (K = 0). -/
theorem k_below_one_terminates_cleanly_witness :
    readRequest (fun s => if s = "0" then some 0 else none) (fun _ => none)
        (fun _ => []) (fun _ => 1)
        (SearchState.mk [] [] (fun _ _ => []) id "dot").similarity ["0", "0"]
      = ReadOutcome.request ⟨[], 0⟩ [] ∧
    ((0 : Int) < 1) ∧
    runLoop (SearchState.mk [] [] (fun _ _ => []) id "dot")
        (fun s => if s = "0" then some 0 else none) (fun _ => none)
        (fun _ => []) (fun _ => 1) ["0", "0"]
      = ([], RunExit.clean) :=
  ⟨by decide, by decide,
    k_below_one_terminates_cleanly (SearchState.mk [] [] (fun _ _ => []) id "dot")
      (fun s => if s = "0" then some 0 else none) (fun _ => none)
      (fun _ => []) (fun _ => 1) ["0", "0"] ⟨[], 0⟩ [] (by decide) (by decide)⟩

theorem pySplitTab_ne_nil (l : List Char) : pySplitTab l ≠ [] := by
  cases l with
  | nil => simp [pySplitTab]
  | cons c t =>
    simp only [pySplitTab]
    cases pySplitTab t with
    | nil => simp
    | cons f rest =>
      by_cases hc : c = '\t'
      · simp [hc]
      · simp [hc]

theorem pySplitTab_no_tab (a : List Char) (h : '\t' ∉ a) : pySplitTab a = [a] := by
  induction a with
  | nil => rfl
  | cons c t ih =>
    have hc : c ≠ '\t' := fun e => h (by simp [e])
    have ht : '\t' ∉ t := fun m => h (List.mem_cons_of_mem c m)
    simp only [pySplitTab, ih ht]
    rw [if_neg hc]

theorem pySplitTab_append (a b : List Char) (h : '\t' ∉ a) :
    pySplitTab (a ++ '\t' :: b) = a :: pySplitTab b := by
  induction a with
  | nil =>
    obtain ⟨f, rest, hfr⟩ : ∃ f rest, pySplitTab b = f :: rest := by
      cases hb : pySplitTab b with
      | nil => exact absurd hb (pySplitTab_ne_nil b)
      | cons f rest => exact ⟨f, rest, rfl⟩
    simp only [List.nil_append, pySplitTab, hfr]
    simp
  | cons c t ih =>
    have hc : c ≠ '\t' := fun e => h (by simp [e])
    have ht : '\t' ∉ t := fun m => h (List.mem_cons_of_mem c m)
    simp only [List.cons_append, pySplitTab, List.append_eq, ih ht]
    rw [if_neg hc]

theorem dropWhile_eq_self_of_head (p : Char → Bool) (l : List Char)
    (h : ∀ c, l.head? = some c → p c = false) : l.dropWhile p = l := by
  cases l with
  | nil => rfl
  | cons c t => simp [List.dropWhile_cons, h c rfl]

theorem pyStrip_eq_self (l : List Char) (h1 : isWS (l.headD '\t') = false)
    (h2 : isWS (l.getLastD '\t') = false) : pyStrip l = l := by
  have hh : ∀ c, l.head? = some c → isWS c = false := by
    intro c hc
    cases l with
    | nil => simp at hc
    | cons a t =>
      simp only [List.head?_cons, Option.some.injEq] at hc
      exact hc ▸ h1
  have hg : ∀ c, l.reverse.head? = some c → isWS c = false := by
    intro c hc
    rw [List.head?_reverse] at hc
    have hgl : l.getLastD '\t' = c := by
      rw [List.getLastD_eq_getLast?, hc]
      rfl
    rw [← hgl]
    exact h2
  unfold pyStrip
  rw [dropWhile_eq_self_of_head _ _ hh, dropWhile_eq_self_of_head _ _ hg,
    List.reverse_reverse]

theorem getLastD_append_of_ne_nil (xs post : List Char) (d : Char) (h : post ≠ []) :
    (xs ++ post).getLastD d = post.getLastD d := by
  rw [List.getLastD_eq_getLast?, List.getLastD_eq_getLast?,
    List.getLast?_append_of_ne_nil _ h]

theorem takeWhile_all_append (p : Char → Bool) (a b : List Char)
    (ha : ∀ x ∈ a, p x = true) : (a ++ b).takeWhile p = a ++ b.takeWhile p := by
  induction a with
  | nil => simp
  | cons c t ih =>
    have hc : p c = true := ha c (by simp)
    simp only [List.cons_append, List.takeWhile_cons, hc]
    rw [ih (fun x hx => ha x (by simp [hx]))]
    simp

/-- C9 (amended): resolving a document record strips the surrounding
whitespace of the line read at `offsets[ordinal]` and splits it at EVERY tab,
returning the first two fields: the id is the part before the first tab and
the text is the part between the first and the SECOND tab — which equals the
entire remainder of the line only when the text itself contains no tab.
Stated for a line id/text/rest with clean boundaries (first character of the
id and last character of the line not in the stripped set), together with
the seek-and-read-one-line behavior. -/
theorem doc_resolution_first_two_tab_fields :
    (∀ pre mid post : List Char,
      isWS (pre.headD '\t') = false → '\t' ∉ pre → '\t' ∉ mid →
      isWS (post.getLastD '\t') = false →
      parseDocLine (pre ++ '\t' :: (mid ++ '\t' :: post)) = (pre, mid)) ∧
    (∀ pre mid : List Char,
      isWS (pre.headD '\t') = false → '\t' ∉ pre → '\t' ∉ mid →
      isWS (mid.getLastD '\t') = false →
      parseDocLine (pre ++ '\t' :: mid) = (pre, mid)) ∧
    (∀ (file : List Char) (refs : List Nat) (ordinal : Nat) (line tail : List Char),
      file.drop (refs.getD ordinal 0) = line ++ '\n' :: tail → '\n' ∉ line →
      readLineAt file (refs.getD ordinal 0) = line) := by
  refine ⟨?_, ?_, ?_⟩
  · intro pre mid post h1 h2 h3 h4
    obtain ⟨p, pre2, rfl⟩ : ∃ p pre2, pre = p :: pre2 := by
      cases pre with
      | nil => simp [isWS] at h1
      | cons p pre2 => exact ⟨p, pre2, rfl⟩
    have hpost : post ≠ [] := by
      intro e
      rw [e] at h4
      simp [isWS] at h4
    have hline : (p :: pre2) ++ '\t' :: (mid ++ '\t' :: post)
        = (((p :: pre2) ++ '\t' :: mid ++ ['\t']) ++ post) := by
      simp
    have hstrip : pyStrip ((p :: pre2) ++ '\t' :: (mid ++ '\t' :: post))
        = (p :: pre2) ++ '\t' :: (mid ++ '\t' :: post) := by
      refine pyStrip_eq_self _ ?_ ?_
      · exact h1
      · rw [hline, getLastD_append_of_ne_nil _ _ _ hpost]
        exact h4
    unfold parseDocLine
    rw [hstrip, pySplitTab_append _ _ h2, pySplitTab_append _ _ h3]
    rfl
  · intro pre mid h1 h2 h3 h4
    obtain ⟨p, pre2, rfl⟩ : ∃ p pre2, pre = p :: pre2 := by
      cases pre with
      | nil => simp [isWS] at h1
      | cons p pre2 => exact ⟨p, pre2, rfl⟩
    have hmid : mid ≠ [] := by
      intro e
      rw [e] at h4
      simp [isWS] at h4
    have hline : (p :: pre2) ++ '\t' :: mid = (((p :: pre2) ++ ['\t']) ++ mid) := by
      simp
    have hstrip : pyStrip ((p :: pre2) ++ '\t' :: mid)
        = (p :: pre2) ++ '\t' :: mid := by
      refine pyStrip_eq_self _ ?_ ?_
      · exact h1
      · rw [hline, getLastD_append_of_ne_nil _ _ _ hmid]
        exact h4
    unfold parseDocLine
    rw [hstrip, pySplitTab_append _ _ h2, pySplitTab_no_tab _ h3]
    rfl
  · intro file refs ordinal line tail hdrop hnl
    unfold readLineAt
    rw [hdrop, takeWhile_all_append _ _ _ ?_]
    · simp
    · intro x hx
      simp only [decide_eq_true_eq]
      intro e
      exact hnl (e ▸ hx)

/-- C9 counterexample: the claim says the text is the ENTIRE remainder of the
line after the first tab, even when the text contains tabs.  On the line
`"d1\thello\tworld\n"` (text `"hello\tworld"`) the code's
`.split('\t')[1]` returns only `"hello"`. -/
theorem doc_text_not_entire_remainder :
    resolveDoc ("d1\thello\tworld\n".toList) [0] 0 = ("d1".toList, "hello".toList) ∧
    ("hello".toList : List Char) ≠ "hello\tworld".toList := by
  refine ⟨by decide, by decide⟩

/-- Closed witness for `doc_resolution_first_two_tab_fields` at the same
concrete line. -/
theorem doc_resolution_first_two_tab_fields_witness :
    (isWS (("d1".toList : List Char).headD '\t') = false ∧ '\t' ∉ ("d1".toList : List Char) ∧
      '\t' ∉ ("hello".toList : List Char) ∧
      isWS (("world".toList : List Char).getLastD '\t') = false) ∧
    parseDocLine ("d1".toList ++ '\t' :: ("hello".toList ++ '\t' :: "world".toList))
      = ("d1".toList, "hello".toList) :=
  ⟨⟨by decide, by decide, by decide, by decide⟩,
    doc_resolution_first_two_tab_fields.1 "d1".toList "hello".toList "world".toList
      (by decide) (by decide) (by decide) (by decide)⟩

/-- C4: the claim says the builder L2-normalizes each vector of a cosine
batch by its own norm, for every batch size B and width W.  Line 81 of
`faiss_index.py` divides the (B, W) matrix by the (B,)-shaped norm vector
without `[:, None]`: NumPy broadcasting aligns the norms with the LAST axis,
so the division errors out whenever W ≠ B, and in the square case divides
entry (i, j) by the norm of vector j instead of vector i.  For the batch
[[3, 4], [6, 8]] (norms 5 and 10) the code yields [[3/5, 2/5], [6/5, 4/5]]:
its first row has squared norm 13/25 ≠ 1, while true normalization gives
[[3/5, 4/5], [3/5, 4/5]]. -/
theorem cosine_normalization_divides_by_wrong_norm :
    isEuclideanNormsOf [5, 10] [[3, 4], [6, 8]] ∧
    normalizeBatch_code [[3, 4], [6, 8]] [5, 10] = [[3/5, 2/5], [6/5, 4/5]] ∧
    normalizeBatch_spec [[3, 4], [6, 8]] [5, 10] = [[3/5, 4/5], [3/5, 4/5]] ∧
    (((normalizeBatch_code [[3, 4], [6, 8]] [5, 10]).getD 0 []).map (fun a => a * a)).sum ≠ 1 ∧
    normalizeBatch_code [[3, 4], [6, 8]] [5, 10] ≠ normalizeBatch_spec [[3, 4], [6, 8]] [5, 10] := by
  have hcode : normalizeBatch_code [[3, 4], [6, 8]] [5, 10] = [[3/5, 2/5], [6/5, 4/5]] := by
    simp [normalizeBatch_code]
    norm_num
  have hspec : normalizeBatch_spec [[3, 4], [6, 8]] [5, 10] = [[3/5, 4/5], [3/5, 4/5]] := by
    simp [normalizeBatch_spec]
    norm_num
  refine ⟨⟨rfl, ?_⟩, hcode, hspec, ?_, ?_⟩
  · intro i hi
    simp only [List.length_cons, List.length_nil] at hi
    interval_cases i <;> norm_num
  · rw [hcode]
    simp
    norm_num
  · intro h
    rw [hcode, hspec] at h
    have h2 := congrArg (fun l : List Vec => (l.getD 0 []).getD 1 0) h
    simp at h2
    norm_num at h2

/-- Closed witness for `search_results_sorted_desc_truncated` at a concrete
two-candidate request. -/
theorem search_results_sorted_desc_truncated_witness :
    [0, 1].Nodup ∧ 1 ≤ [[(1 : ℚ)]].length ∧
    ∃ l : List (Nat × ℚ),
      (queries_result [0, 1] (fun _ => [1]) [[1]] [1] id "dot").Perm l ∧
      l.Pairwise (fun p q => q.2 ≤ p.2) ∧
      result_code (queries_result [0, 1] (fun _ => [1]) [[1]] [1] id "dot") 5 = l.take 5 ∧
      (result_code (queries_result [0, 1] (fun _ => [1]) [[1]] [1] id "dot") 5).length
        = min 5 [0, 1].length :=
  ⟨by decide, by decide,
    search_results_sorted_desc_truncated [0, 1] (fun _ => [1]) [[1]] [1] id "dot" 5
      (by decide) (by decide)⟩

end DECAF
